import Mathlib

/-!
# AutoDownloader: a shallow embedding of `main.go`

The Go program keeps a pool of download goroutines busy forever, each one striding through a
list of URLs and throttling the body reads, while a monitor goroutine prints resource figures.

Modelling conventions:

* Go `int` / `int64` values are mathematical integers wrapped to 64 bits by `wrap64`
  (the program is taken on a 64-bit platform); `uint64` values are naturals reduced modulo `2^64`.
* Go strings are Lean strings; `strings.TrimSpace` and `strings.Fields` are modelled on the
  list of runes with Go's `unicode.IsSpace`.
* `float64` values are modelled by `F64`: a finite value is the rational it stands for, and
  every conversion and operation rounds its exact result to the nearest float64, ties to even,
  with gradual underflow and overflow to infinity (`F64.round`); the sign of zero is not
  represented.
* The operating system is an input: what `os.Open` and the line scanner yield, what each body
  read returns, which network counters a sample shows, and which goroutine runs next.
-/

namespace AutoDownloader

/-! ## Machine integers -/

/-- Two's-complement wrap of a mathematical integer to the range of a Go `int64`. -/
def wrap64 (x : Int) : Int := (x + 2^63) % 2^64 - 2^63

/-- Subtraction of two `uint64` values, as Go computes it (modulo `2^64`). -/
def subU64 (a b : Nat) : Nat := (a % 2^64 + 2^64 - b % 2^64) % 2^64

/-! ## float64 -/

/-- Model of a `float64`: a finite value, a signed infinity, or NaN. -/
inductive F64
  | fin (q : ℚ)
  | inf (neg : Bool)
  | nan
deriving DecidableEq

/-- Rounding of a rational to the nearest integer, ties to the even one. -/
def roundEven (y : ℚ) : Int :=
  let f := ⌊y⌋
  let d := y - f
  if d < 1 / 2 then f else if 1 / 2 < d then f + 1 else if f % 2 = 0 then f else f + 1

/-- Rounding of an exact result to float64 (IEEE 754 binary64, round to nearest, ties to
even): with `e` the binary exponent of `x`, not below the subnormal exponent `-1022`, the value
is rounded to a multiple of the unit in the last place `2^(e-52)`; a result of `2^1024` or more
overflows to infinity. -/
def F64.round (x : ℚ) : F64 :=
  if x = 0 then .fin 0
  else
    let e := max (Int.log 2 |x|) (-1022)
    let r := (roundEven (x / 2 ^ (e - 52)) : ℚ) * 2 ^ (e - 52)
    if 2 ^ (1024 : ℤ) ≤ |r| then .inf (decide (x < 0)) else .fin r

/-- Conversion `float64(n)` of an unsigned integer. -/
def F64.ofNat (n : Nat) : F64 := F64.round n

/-- Conversion `float64(z)` of a signed integer. -/
def F64.ofInt (z : Int) : F64 := F64.round z

/-- Division of two `float64` values. -/
def F64.div : F64 → F64 → F64
  | .fin a, .fin b =>
    if b = 0 then (if a = 0 then .nan else .inf (decide (a < 0))) else F64.round (a / b)
  | .fin _, .inf _ => .fin 0
  | .inf s, .fin b => .inf (xor s (decide (b < 0)))
  | .inf _, .inf _ => .nan
  | .nan, _ => .nan
  | _, .nan => .nan

/-- Multiplication of two `float64` values. -/
def F64.mul : F64 → F64 → F64
  | .fin a, .fin b => F64.round (a * b)
  | .fin a, .inf s => if a = 0 then .nan else .inf (xor s (decide (a < 0)))
  | .inf s, .fin b => if b = 0 then .nan else .inf (xor s (decide (b < 0)))
  | .inf s, .inf t => .inf (xor s t)
  | .nan, _ => .nan
  | _, .nan => .nan

/-- The factor `1 + 2^-52` within which one float64 rounding keeps a value of the normal
range. -/
def relC : ℚ := 1 + 1 / 2 ^ 52

/-- The value `r` is the value `x` after at most `k` roundings: it lies between `x / relC^k`
and `x * relC^k`. -/
def Near (k : Nat) (x r : ℚ) : Prop := x / relC ^ k ≤ r ∧ r ≤ x * relC ^ k

/-! ## Strings -/

/-- Go's `unicode.IsSpace`. -/
def isSpace (c : Char) : Bool :=
  let r := c.toNat
  r = 0x09 || r = 0x0A || r = 0x0B || r = 0x0C || r = 0x0D || r = 0x20 || r = 0x85 || r = 0xA0 ||
  r = 0x1680 || (0x2000 ≤ r && r ≤ 0x200A) || r = 0x2028 || r = 0x2029 || r = 0x202F ||
  r = 0x205F || r = 0x3000

/-- Removal of the leading white space of a rune sequence. -/
def trimLeft (s : List Char) : List Char := s.dropWhile isSpace

/-- Removal of the trailing white space of a rune sequence. -/
def trimRight (s : List Char) : List Char := (s.reverse.dropWhile isSpace).reverse

/-- Go's `strings.TrimSpace`. -/
def trimSpace (s : String) : String := String.mk (trimRight (trimLeft s.data))

/-- Worker of `fields`: `cur` holds the runes of the field being read, last rune first. -/
def fieldsGo : List Char → List Char → List String
  | cur, [] => if cur = [] then [] else [String.mk cur.reverse]
  | cur, c :: cs =>
    if isSpace c then
      (if cur = [] then fieldsGo [] cs else String.mk cur.reverse :: fieldsGo [] cs)
    else fieldsGo (c :: cur) cs

/-- Go's `strings.Fields`: the maximal runs of non-space runes. -/
def fields (s : String) : List String := fieldsGo [] s.data

/-- Go's `strconv.ParseUint(s, 10, 64)`; `none` stands for a non-nil error. -/
def parseUint (s : String) : Option Nat :=
  if s.data = [] then none
  else if s.data.all Char.isDigit then
    let v := s.data.foldl (fun acc c => acc * 10 + (c.toNat - 48)) 0
    if v < 2^64 then some v else none
  else none

/-! ## loadUrls -/

/-- Errors the line scanner can end with. -/
inductive ScanErr
  | tooLong
  | io
deriving DecidableEq, Repr

/-- What the file system answers for the URL file: `os.Open` fails, or the file opens and the
scanner yields `lines` (the successive values of `scanner.Text()`) and ends with `scanErr`. -/
inductive OpenResult
  | openErr
  | file (lines : List String) (scanErr : Option ScanErr)
deriving DecidableEq, Repr

/-- Errors `loadUrls` can return. -/
inductive LoadErr
  | openFailed
  | scan (e : ScanErr)
deriving DecidableEq, Repr

/-- The `for scanner.Scan()` loop of `loadUrls`; the first argument is the slice `urls`. -/
def scanLoop : List String → List String → List String
  | urls, [] => urls
  | urls, text :: rest =>
    let line := trimSpace text
    if line ≠ "" then scanLoop (urls ++ [line]) rest else scanLoop urls rest

/-- The function `loadUrls`: the list returned and the error returned. -/
def loadUrls : OpenResult → List String × Option LoadErr
  | .openErr => ([], some .openFailed)
  | .file lines scanErr => (scanLoop [] lines, scanErr.map .scan)

/-- The registry contract in the words of the specification: trim every line, drop the lines
that are empty after trimming, keep the order. -/
def loadSpec (lines : List String) : List String :=
  (lines.map trimSpace).filter (fun l => l ≠ "")

/-! ## download and its throttle -/

/-- Non-nil errors of a body read. -/
inductive IoErr
  | eof
  | other
deriving DecidableEq, Repr

/-- One result `(n, err)` of `resp.Body.Read(buf)`. -/
structure Read where
  n : Nat
  err : Option IoErr
deriving DecidableEq, Repr

/-- Observable events of one `download` call: a read of the body that delivered `n` bytes, the
value of `readBytes` after the read was accounted, a wait on the ticker channel, and an error
line in the log. -/
inductive Ev
  | read (n : Nat)
  | counter (readBytes : Int)
  | block
  | logError
deriving DecidableEq, Repr

/-- The read loop of `download`, started with the counter `readBytes`, over the results of the
successive reads. The loop ends at the first read that returns an error. -/
def throttleLoop (limitBytes : Int) : Int → List Read → List Ev
  | _, [] => []
  | readBytes, r :: rest =>
    let readBytes1 := if r.n > 0 then wrap64 (readBytes + r.n) else readBytes
    let blocked := decide (readBytes1 ≥ limitBytes)
    let readBytes2 := if blocked then 0 else readBytes1
    Ev.read r.n :: Ev.counter readBytes1 :: ((if blocked then [Ev.block] else []) ++
      (match r.err with
       | none => throttleLoop limitBytes readBytes2 rest
       | some IoErr.eof => []
       | some IoErr.other => [Ev.logError]))

/-- The function `download`: `resp` is `none` when `client.Get` fails, and otherwise the results
of the reads of the response body. -/
def download (speedLimit : Int) (resp : Option (List Read)) : List Ev :=
  match resp with
  | none => [Ev.logError]
  | some reads => throttleLoop (wrap64 (wrap64 (speedLimit * 1024))) 0 reads

/-- The bytes consumed between blocking points, read off a trace of events: the bytes the
reads delivered before each wait on the ticker (the first argument counts the bytes since the
last wait), and last the bytes delivered after the last wait. -/
def burstsFrom : Nat → List Ev → List Nat
  | acc, [] => [acc]
  | acc, Ev.read n :: rest => burstsFrom (acc + n) rest
  | acc, Ev.block :: rest => acc :: burstsFrom 0 rest
  | acc, Ev.counter _ :: rest => burstsFrom acc rest
  | acc, Ev.logError :: rest => burstsFrom acc rest

/-- The bytes consumed before each blocking point of a trace that starts a download. -/
def bursts (evs : List Ev) : List Nat := burstsFrom 0 evs

/-- Number of body bytes a sequence of reads delivers. -/
def bodyLen (reads : List Read) : Nat := (reads.map Read.n).sum

/-- The events of one worker that calls `download` once per response, one call after the other. -/
def workerDownloads (speedLimit : Int) (resps : List (Option (List Read))) : List Ev :=
  resps.flatMap (download speedLimit)

/-! ## The worker loop -/

/-- The index expression `idx % len(urls)` of `urls[idx%len(urls)]`, with Go's truncated
remainder; `none` stands for the run-time panic (division by zero or index out of range). -/
def urlIndex (len : Nat) (idx : Int) : Option Nat :=
  if len = 0 then none
  else
    let r := Int.tmod idx len
    if 0 ≤ r ∧ r < len then some r.toNat else none

/-- The index the worker loop uses on its `k`-th iteration when the variable `idx` holds `idx`
now; `none` when the goroutine panics on that iteration or before it. -/
def nthIndex (len : Nat) (threadCount : Int) : Nat → Int → Option Nat
  | 0, idx => urlIndex len idx
  | k + 1, idx =>
    match urlIndex len idx with
    | none => none
    | some _ => nthIndex len threadCount k (wrap64 (idx + threadCount))

/-- The URL the worker loop passes to `download` on its `k`-th iteration. -/
def nthFetch (urls : List String) (threadCount : Int) (k : Nat) (idx : Int) : Option String :=
  (nthIndex urls.length threadCount k idx).bind (fun j => urls[j]?)

/-- Number of iterations of one full round: `len / threadCount` rounded up. -/
def roundLen (len threadCount : Nat) : Nat := (len + threadCount - 1) / threadCount

/-- The indices assigned during one full round, worker by worker and iteration by iteration. -/
def roundIndices (len threadCount : Nat) : List (Option Nat) :=
  (List.range threadCount).flatMap (fun i =>
    (List.range (roundLen len threadCount)).map (fun k => nthIndex len threadCount k i))

/-- How many times the index `j` is assigned during one full round. -/
def timesAssigned (len threadCount j : Nat) : Nat :=
  (roundIndices len threadCount).countP (fun x => decide (x = some j))

/-! ## main and its goroutines -/

/-- The configuration `main` reads from the environment, and the answer of the file system. -/
structure Config where
  file : OpenResult
  speedLimit : Int
  threadCount : Int
  sleepInterval : Int

/-- Severity of a log line. -/
inductive LogLevel
  | info
  | error
deriving DecidableEq, Repr

/-- Where the main goroutine stands: before `loadUrls`, in the spawn loop with loop variable
`i`, blocked in `wg.Wait()`, returned from `main`, or gone through `os.Exit(code)`. -/
inductive Pc
  | start
  | spawn (i : Int)
  | wait
  | returned
  | exited (code : Nat)
deriving DecidableEq, Repr

/-- State of the process. `workers` holds the variable `idx` of every started worker goroutine,
the goroutine with id `j` at position `j`; `panicked` is set once a goroutine has panicked,
which ends the process. -/
structure Proc where
  pc : Pc
  urls : List String
  currentUrl : String
  log : List LogLevel
  monitorOn : Bool
  wg : Int
  workers : List Int
  panicked : Bool
deriving DecidableEq, Repr

/-- The goroutine the scheduler runs next. -/
inductive Sched
  | main
  | worker (id : Nat)
  | monitor
deriving DecidableEq, Repr

/-- State of the process when `main` is entered. -/
def Proc.init : Proc :=
  { pc := .start, urls := [], currentUrl := "", log := [], monitorOn := false, wg := 0,
    workers := [], panicked := false }

/-- One step of the main goroutine. -/
def stepMain (cfg : Config) (s : Proc) : Proc :=
  match s.pc with
  | .start =>
    match loadUrls cfg.file with
    | (us, some _) => { s with urls := us, log := s.log ++ [.error], pc := .exited 1 }
    | (us, none) =>
      if us.length = 0 then { s with urls := us, log := s.log ++ [.error], pc := .exited 1 }
      else { s with urls := us, log := s.log ++ [.info], monitorOn := true, pc := .spawn 0 }
  | .spawn i =>
    if i < cfg.threadCount then
      { s with wg := s.wg + 1, workers := s.workers ++ [i], pc := .spawn (wrap64 (i + 1)) }
    else { s with pc := .wait }
  | .wait => if s.wg = 0 then { s with pc := .returned } else s
  | .returned => s
  | .exited _ => s

/-- One iteration of the loop of worker `id`: the URL is chosen and published, `download` runs,
and `idx` advances by `threadCount`. When the index expression panics, the deferred `wg.Done()`
runs and the process is over. -/
def stepWorker (cfg : Config) (s : Proc) (id : Nat) : Proc :=
  match s.workers[id]? with
  | none => s
  | some idx =>
    match (urlIndex s.urls.length idx).bind (fun j => s.urls[j]?) with
    | some url =>
      { s with currentUrl := url, workers := s.workers.set id (wrap64 (idx + cfg.threadCount)) }
    | none => { s with wg := s.wg - 1, panicked := true }

/-- One step of the process: the chosen goroutine moves. Nothing moves once the process is
over; the monitor only reads the state. -/
def step (cfg : Config) (s : Proc) (c : Sched) : Proc :=
  if s.panicked then s
  else
    match s.pc with
    | .returned => s
    | .exited _ => s
    | _ =>
      match c with
      | .main => stepMain cfg s
      | .worker id => stepWorker cfg s id
      | .monitor => s

/-- The state of the process after the goroutines have moved in the order `sched`. -/
def run (cfg : Config) (sched : List Sched) : Proc := sched.foldl (step cfg) Proc.init

/-- Invariant of the process when the list `us` was loaded and at least one worker is to be
started: a panic leaves a negative `idx` behind, and once the first worker is started the
counter of the wait group stays positive as long as no goroutine has panicked. -/
def RunInv (us : List String) (s : Proc) : Prop :=
  (s.panicked = true → ∃ idx ∈ s.workers, idx < 0) ∧
  ((s.pc = .start ∧ s.panicked = false ∧ s.workers = [] ∧ s.wg = 0) ∨
   (s.pc = .spawn 0 ∧ s.urls = us ∧ s.panicked = false ∧ s.workers = [] ∧ s.wg = 0) ∨
   ((∃ i, s.pc = .spawn i) ∧ s.urls = us ∧ (s.panicked = false → 1 ≤ s.wg)) ∨
   (s.pc = .wait ∧ s.urls = us ∧ (s.panicked = false → 1 ≤ s.wg)))

/-! ## monitor -/

/-- The struct `NetStats`; both fields are `uint64`. -/
structure NetStats where
  recvBytes : Nat
  sendBytes : Nat
deriving DecidableEq, Repr

/-- The speed expression of `monitor` for one direction:
`float64(current - last) / float64(sleepInterval) / 1024 / 1024`. -/
def netSpeed (current last : Nat) (sleepInterval : Int) : F64 :=
  (((F64.ofNat (subU64 current last)).div (F64.ofInt sleepInterval)).div (F64.fin 1024)).div
    (F64.fin 1024)

/-- One pass of the loop of `monitor` on the network counters: the receive speed, the send
speed, and the new value of `lastStats`. -/
def monitorTick (sleepInterval : Int) (lastStats currentStats : NetStats) :
    F64 × F64 × NetStats :=
  (netSpeed currentStats.recvBytes lastStats.recvBytes sleepInterval,
   netSpeed currentStats.sendBytes lastStats.sendBytes sleepInterval,
   currentStats)

/-- Errors `getCpuUsage` can return. -/
inductive CpuErr
  | read
  | format
  | parse (val : String)
deriving DecidableEq, Repr

/-- The `for i, val := range fields[1:]` loop of `getCpuUsage`: the arguments are the fields
left, the index `i`, and the variables `idle` and `total`. -/
def cpuLoop : List String → Nat → Nat → Nat → CpuErr ⊕ (Nat × Nat)
  | [], _, idle, total => .inr (idle, total)
  | val :: rest, i, idle, total =>
    match parseUint val with
    | none => .inl (.parse val)
    | some num => cpuLoop rest (i + 1) (if i = 3 then num else idle) ((total + num) % 2^64)

/-- The function `getCpuUsage`; `data` is the content of `/proc/stat`, `none` when it cannot be
read. The left summand is the error returned. -/
def getCpuUsage (data : Option String) : CpuErr ⊕ F64 :=
  match data with
  | none => .inl .read
  | some d =>
    let fs := fields d
    if fs.length < 5 then .inl .format
    else
      match cpuLoop fs.tail 0 0 0 with
      | .inl e => .inl e
      | .inr (idle, total) =>
        .inr (((F64.ofNat (subU64 total idle)).div (F64.ofNat total)).mul (F64.fin 100))

/-- The ratio of the specification, `(total - idle) / total * 100`, over the counters of the
aggregate line. -/
def cpuRatio (counters : List Nat) : ℚ :=
  ((counters.sum : ℚ) - (counters.getD 3 0 : ℚ)) / (counters.sum : ℚ) * 100

/-! ## Throttle: lemmas -/

theorem wrap64_id (x : Int) (h0 : -2^63 ≤ x) (h1 : x < 2^63) : wrap64 x = x := by
  unfold wrap64; omega

theorem wrap64_idem (x : Int) : wrap64 (wrap64 x) = wrap64 x := by
  unfold wrap64; omega

theorem wrap64_limit (S : Int) (hS : 0 ≤ S) :
    wrap64 (S * 1024) ≤ S * 1024 ∧ wrap64 (S * 1024) ≤ 2^63 - 1024 := by
  unfold wrap64; omega

/-- One pass of the read loop, with the counter after the read written as `readBytes + n`:
valid as long as the sum does not leave the `int64` range. -/
theorem throttleLoop_cons (limit rb : Int) (r : Read) (rest : List Read)
    (h0 : -2^63 ≤ rb + r.n) (h1 : rb + r.n < 2^63) :
    throttleLoop limit rb (r :: rest) =
      Ev.read r.n :: Ev.counter (rb + r.n) ::
        ((if rb + r.n ≥ limit then [Ev.block] else []) ++
          (match r.err with
           | none => throttleLoop limit (if rb + r.n ≥ limit then 0 else rb + r.n) rest
           | some IoErr.eof => []
           | some IoErr.other => [Ev.logError])) := by
  have hexp : (if r.n > 0 then wrap64 (rb + r.n) else rb) = rb + r.n := by
    split
    · exact wrap64_id _ h0 h1
    · omega
  simp only [throttleLoop, hexp, decide_eq_true_eq]

/-- Invariant of the read loop: entering an iteration the counter is zero or below the limit,
so every value it takes is at most the limit plus one chunk. -/
theorem throttleLoop_counter_le (limit B : Int) (hl : limit ≤ 2^63 - 1024)
    (hB : limit + 1024 ≤ B) (hB0 : 1024 ≤ B)
    (reads : List Read) (hn : ∀ r ∈ reads, r.n ≤ 1024) :
    ∀ rb : Int, 0 ≤ rb → (rb < limit ∨ rb = 0) →
      ∀ v, Ev.counter v ∈ throttleLoop limit rb reads → 0 ≤ v ∧ v ≤ B := by
  induction reads with
  | nil => intro rb _ _ v hv; simp [throttleLoop] at hv
  | cons r rest ih =>
    intro rb h0 hlt v hv
    have hr : r.n ≤ 1024 := hn r (List.mem_cons_self _ _)
    have hrest : ∀ x ∈ rest, x.n ≤ 1024 := fun x hx => hn x (List.mem_cons_of_mem _ hx)
    rw [throttleLoop_cons limit rb r rest (by omega) (by omega)] at hv
    simp only [List.mem_cons, List.mem_append, reduceCtorEq, false_or, Ev.counter.injEq] at hv
    rcases hv with hv | hv | hv
    · subst hv; omega
    · split at hv <;> simp at hv
    · rcases herr : r.err with _ | _ | _
      · rw [herr] at hv
        simp only at hv
        refine ih hrest _ ?_ ?_ v hv
        · split <;> omega
        · split
          · right; rfl
          · left; omega
      · rw [herr] at hv; simp at hv
      · rw [herr] at hv; simp at hv

/-- The bytes consumed between two waits are the value of the counter: no window of the read
loop exceeds the limit plus one chunk. The second argument of `burstsFrom` follows the counter. -/
theorem throttleLoop_bursts_le (limit B : Int) (hl : limit ≤ 2^63 - 1024)
    (hB : limit + 1024 ≤ B) (hB0 : 1024 ≤ B)
    (reads : List Read) (hn : ∀ r ∈ reads, r.n ≤ 1024) :
    ∀ (rb : Int) (acc : Nat), (acc : Int) = rb → (rb < limit ∨ rb = 0) →
      ∀ b ∈ burstsFrom acc (throttleLoop limit rb reads), (b : Int) ≤ B := by
  induction reads with
  | nil =>
    intro rb acc hacc hlt b hb
    simp only [throttleLoop, burstsFrom, List.mem_singleton] at hb
    subst hb
    omega
  | cons r rest ih =>
    intro rb acc hacc hlt b hb
    have hr : r.n ≤ 1024 := hn r (List.mem_cons_self _ _)
    have hrest : ∀ x ∈ rest, x.n ≤ 1024 := fun x hx => hn x (List.mem_cons_of_mem _ hx)
    rw [throttleLoop_cons limit rb r rest (by omega) (by omega)] at hb
    simp only [burstsFrom] at hb
    by_cases hblock : rb + r.n ≥ limit
    · simp only [hblock, if_true, List.singleton_append, burstsFrom, List.mem_cons] at hb
      rcases hb with hb | hb
      · subst hb; push_cast; omega
      · rcases herr : r.err with _ | _ | _
        · rw [herr] at hb
          exact ih hrest 0 0 rfl (Or.inr rfl) b hb
        · rw [herr] at hb
          simp only [burstsFrom, List.mem_singleton] at hb
          subst hb; omega
        · rw [herr] at hb
          simp only [burstsFrom, List.mem_singleton] at hb
          subst hb; omega
    · simp only [hblock, if_false, List.nil_append] at hb
      rcases herr : r.err with _ | _ | _
      · rw [herr] at hb
        exact ih hrest (rb + r.n) (acc + r.n) (by push_cast; omega) (Or.inl (by omega)) b hb
      · rw [herr] at hb
        simp only [burstsFrom, List.mem_singleton] at hb
        subst hb; push_cast; omega
      · rw [herr] at hb
        simp only [burstsFrom, List.mem_singleton] at hb
        subst hb; push_cast; omega

/-- The read loop does wait: when the reads, none of which fails, deliver enough bytes to
bring the counter to the limit, a wait on the ticker occurs. -/
theorem throttleLoop_blocks (limit : Int) (hl : limit ≤ 2^63 - 1024)
    (reads : List Read) (hn : ∀ r ∈ reads, r.n ≤ 1024) (herr : ∀ r ∈ reads, r.err = none) :
    ∀ rb : Int, 0 ≤ rb → (rb < limit ∨ rb = 0) → reads ≠ [] →
      limit ≤ rb + (bodyLen reads : Int) → Ev.block ∈ throttleLoop limit rb reads := by
  induction reads with
  | nil => intro rb _ _ hne; exact absurd rfl hne
  | cons r rest ih =>
    intro rb h0 hlt _ hsum
    have hr : r.n ≤ 1024 := hn r (List.mem_cons_self _ _)
    have hrest : ∀ x ∈ rest, x.n ≤ 1024 := fun x hx => hn x (List.mem_cons_of_mem _ hx)
    have herr0 : r.err = none := herr r (List.mem_cons_self _ _)
    have herrs : ∀ x ∈ rest, x.err = none := fun x hx => herr x (List.mem_cons_of_mem _ hx)
    have hlen : (bodyLen (r :: rest) : Int) = r.n + bodyLen rest := by
      simp [bodyLen]
    rw [hlen] at hsum
    rw [throttleLoop_cons limit rb r rest (by omega) (by omega), herr0]
    by_cases hblock : rb + r.n ≥ limit
    · simp [hblock]
    · simp only [hblock, if_false, List.nil_append, List.mem_cons, reduceCtorEq, false_or]
      have hne : rest ≠ [] := by
        intro hnil
        rw [hnil] at hsum
        simp [bodyLen] at hsum
        omega
      exact ih hrest herrs (rb + r.n) (by omega) (Or.inl (by omega)) hne (by omega)

/-- A body that stays below the limit never makes the read loop wait. -/
theorem throttleLoop_no_block (limit : Int) (hl : limit ≤ 2^63) (reads : List Read) :
    ∀ rb : Int, 0 ≤ rb → rb + (bodyLen reads : Int) < limit →
      Ev.block ∉ throttleLoop limit rb reads := by
  induction reads with
  | nil => intro rb _ _ hv; simp [throttleLoop] at hv
  | cons r rest ih =>
    intro rb h0 hlt hv
    have hlen : (bodyLen (r :: rest) : Int) = r.n + bodyLen rest := by
      simp [bodyLen]
    rw [hlen] at hlt
    have hnb : ¬ (rb + r.n ≥ limit) := by omega
    rw [throttleLoop_cons limit rb r rest (by omega) (by omega)] at hv
    simp only [hnb, if_false, List.nil_append, List.mem_cons, reduceCtorEq, false_or] at hv
    rcases herr : r.err with _ | _ | _
    · rw [herr] at hv
      exact ih (rb + r.n) (by omega) (by omega) hv
    · rw [herr] at hv; simp at hv
    · rw [herr] at hv; simp at hv

/-! ## Throttle: the claims -/

/-- C1 (throttle ceiling). For every speed limit `S ≥ 0` and every sequence of chunk reads of
one `download` call, each read returning at most 1024 bytes: the bytes consumed before each
blocking point (the bytes the reads delivered since the start of the download or since the
last wait on the ticker) never exceed `S * 1024 + 1024`; every value the counter `readBytes`
takes lies between 0 and `S * 1024 + 1024`; and the throttle does wait: when the reads, none of
which fails, deliver at least `S * 1024` bytes, the download waits on the ticker. -/
theorem throttle_ceiling (S : Int) (hS : 0 ≤ S) (reads : List Read)
    (hn : ∀ r ∈ reads, r.n ≤ 1024) :
    (∀ b ∈ bursts (download S (some reads)), (b : Int) ≤ S * 1024 + 1024) ∧
      (∀ v, Ev.counter v ∈ download S (some reads) → 0 ≤ v ∧ v ≤ S * 1024 + 1024) ∧
      (reads ≠ [] → (∀ r ∈ reads, r.err = none) → S * 1024 ≤ (bodyLen reads : Int) →
        Ev.block ∈ download S (some reads)) := by
  have hlim := wrap64_limit S hS
  simp only [download, wrap64_idem, bursts]
  refine ⟨?_, ?_, ?_⟩
  · exact throttleLoop_bursts_le (wrap64 (S * 1024)) (S * 1024 + 1024) hlim.2 (by omega)
      (by omega) reads hn 0 0 rfl (Or.inr rfl)
  · exact throttleLoop_counter_le (wrap64 (S * 1024)) (S * 1024 + 1024) hlim.2 (by omega)
      (by omega) reads hn 0 (le_refl _) (Or.inr rfl)
  · intro hne herr hsum
    exact throttleLoop_blocks (wrap64 (S * 1024)) hlim.2 reads hn herr 0 (le_refl _)
      (Or.inr rfl) hne (by omega)

/-- Witness of C1: with `S = 2` five full chunks and a last read of 100 bytes are consumed in
the windows of 2048, 2048 and 1124 bytes, with a wait on the ticker after each of the first
two; every window is within `2 * 1024 + 1024`. -/
theorem throttle_ceiling_witness :
    bursts (download 2 (some [⟨1024, none⟩, ⟨1024, none⟩, ⟨1024, none⟩, ⟨1024, none⟩,
        ⟨1024, none⟩, ⟨100, some .eof⟩])) = [2048, 2048, 1124] ∧
      (∀ b ∈ bursts (download 2 (some [⟨1024, none⟩, ⟨1024, none⟩, ⟨1024, none⟩,
        ⟨1024, none⟩, ⟨1024, none⟩, ⟨100, some .eof⟩])), (b : Int) ≤ 2 * 1024 + 1024) :=
  ⟨by decide, (throttle_ceiling 2 (by decide)
    [⟨1024, none⟩, ⟨1024, none⟩, ⟨1024, none⟩, ⟨1024, none⟩, ⟨1024, none⟩, ⟨100, some .eof⟩]
    (by decide)).1⟩

/-- C10 as stated fails: with the speed limit `S = 2^53` the product `S * 1024` wraps to
`-2^63`, and a body of one byte, shorter than `S * 1024`, makes the worker wait on the tick. -/
theorem no_block_counterexample :
    (1 : Int) ≤ 2^53 ∧
      (bodyLen [⟨1, some .eof⟩] : Int) < 2^53 * 1024 ∧
      Ev.block ∈ workerDownloads (2^53) [some [⟨1, some .eof⟩]] := by
  decide

/-- C10 (amended). The counter starts at zero in every call of `download`: for every speed
limit `S ≥ 1` whose byte limit `S * 1024` fits the `int` range and every sequence of downloads
of one worker in which each response body is shorter than `S * 1024` bytes, the worker never
waits on the tick, whatever the number of downloads and their total size. -/
theorem no_block_short_bodies (S : Int) (h1 : 1 ≤ S) (hfit : S * 1024 < 2^63)
    (resps : List (Option (List Read)))
    (hshort : ∀ reads, some reads ∈ resps → (bodyLen reads : Int) < S * 1024) :
    Ev.block ∉ workerDownloads S resps := by
  intro hmem
  simp only [workerDownloads, List.mem_flatMap] at hmem
  obtain ⟨resp, hresp, hev⟩ := hmem
  cases resp with
  | none => simp [download] at hev
  | some reads =>
    have hw : wrap64 (S * 1024) = S * 1024 := wrap64_id _ (by omega) hfit
    simp only [download, wrap64_idem, hw] at hev
    exact throttleLoop_no_block (S * 1024) (by omega) reads 0 (le_refl _)
      (by have := hshort reads hresp; omega) hev

/-- Witness of C10 (amended): with `S = 1` three downloads of 1000 bytes each, 3000 bytes in
total, never wait on the tick. -/
theorem no_block_short_bodies_witness :
    Ev.block ∉ workerDownloads 1
      [some [⟨1000, some .eof⟩], some [⟨500, none⟩, ⟨500, some .eof⟩], some [⟨1000, some .eof⟩]] :=
  no_block_short_bodies 1 (by decide) (by decide) _ (by
    intro reads h
    simp only [List.mem_cons, Option.some.injEq, List.mem_singleton, List.not_mem_nil,
      or_false] at h
    rcases h with rfl | rfl | rfl <;> decide)

/-! ## loadUrls: lemmas and claim -/

theorem scanLoop_eq (lines : List String) :
    ∀ urls, scanLoop urls lines = urls ++ loadSpec lines := by
  induction lines with
  | nil => intro urls; simp [scanLoop, loadSpec]
  | cons text rest ih =>
    intro urls
    by_cases h : trimSpace text = ""
    · simp [scanLoop, loadSpec, h, ih]
    · simp [scanLoop, loadSpec, h, ih]

theorem loadSpec_blank (lines : List String) (h : ∀ l ∈ lines, trimSpace l = "") :
    loadSpec lines = [] := by
  simp only [loadSpec, List.filter_eq_nil_iff, List.mem_map]
  rintro l ⟨x, hx, rfl⟩
  simp [h x hx]

/-- The first rune left by `trimLeft` is not white space. -/
theorem trimLeft_head (l : List Char) (c : Char) (h : (trimLeft l).head? = some c) :
    isSpace c = false := by
  have hd := List.head?_dropWhile_not isSpace l
  unfold trimLeft at h
  rw [h] at hd
  exact hd

/-- The last rune left by `trimRight` is not white space. -/
theorem trimRight_last (l : List Char) (c : Char) (h : (trimRight l).getLast? = some c) :
    isSpace c = false := by
  have hd := List.head?_dropWhile_not isSpace l.reverse
  unfold trimRight at h
  rw [List.getLast?_reverse] at h
  rw [h] at hd
  exact hd

/-- The function `trimRight` keeps the first rune when it leaves any. -/
theorem trimRight_head (l : List Char) (c : Char) (h : (trimRight l).head? = some c) :
    l.head? = some c := by
  unfold trimRight at h
  rw [List.head?_reverse] at h
  obtain ⟨t, ht⟩ := List.dropWhile_suffix (l := l.reverse) isSpace
  have hne : List.dropWhile isSpace l.reverse ≠ [] := by
    intro hnil
    rw [hnil] at h
    cases h
  have hlast := List.getLast?_append_of_ne_nil t hne
  rw [ht, List.getLast?_reverse, h] at hlast
  exact hlast

/-- Every string `loadSpec` keeps is non-empty and neither starts nor ends with white space. -/
theorem loadSpec_trimmed (lines : List String) (u : String) (hu : u ∈ loadSpec lines) :
    u ≠ "" ∧ (∀ c, u.data.head? = some c → isSpace c = false) ∧
      (∀ c, u.data.getLast? = some c → isSpace c = false) := by
  simp only [loadSpec, List.mem_filter, List.mem_map, decide_eq_true_eq] at hu
  obtain ⟨⟨l, _, rfl⟩, hne⟩ := hu
  refine ⟨hne, ?_, ?_⟩
  · intro c hc
    exact trimLeft_head l.data c (trimRight_head _ c hc)
  · intro c hc
    exact trimRight_last _ c hc

/-- C4 (registry load). For every file that opens, seen as the sequence `lines` the scanner
yields, `loadUrls` returns exactly the trimmed lines that are non-empty after trimming, in
their original order, together with the error of the scanner (none for a readable file); each
string returned is non-empty and neither starts nor ends with white space; for the lines
`["  a  ", "", "b", "   "]` it returns `["a", "b"]`. -/
theorem loadUrls_registry (lines : List String) (scanErr : Option ScanErr) :
    loadUrls (.file lines scanErr) = (loadSpec lines, scanErr.map .scan) ∧
      loadUrls (.file lines none) = ((lines.map trimSpace).filter (fun l => l ≠ ""), none) ∧
      (∀ u ∈ (loadUrls (.file lines scanErr)).1,
        u ≠ "" ∧ (∀ c, u.data.head? = some c → isSpace c = false) ∧
          (∀ c, u.data.getLast? = some c → isSpace c = false)) ∧
      loadUrls (.file ["  a  ", "", "b", "   "] none) = (["a", "b"], none) := by
  refine ⟨?_, ?_, ?_, by decide⟩
  · simp [loadUrls, scanLoop_eq]
  · simp [loadUrls, scanLoop_eq, loadSpec]
  · intro u hu
    have hl : (loadUrls (.file lines scanErr)).1 = loadSpec lines := by
      simp [loadUrls, scanLoop_eq]
    rw [hl] at hu
    exact loadSpec_trimmed lines u hu

/-! ## main: lemmas -/

theorem run_cons (cfg : Config) (s : Proc) (c : Sched) (sched : List Sched) :
    List.foldl (step cfg) s (c :: sched) = List.foldl (step cfg) (step cfg s c) sched := rfl

/-- A process that is over does not move any more. -/
theorem foldl_step_exited (cfg : Config) (s : Proc) (code : Nat) (h : s.pc = .exited code)
    (sched : List Sched) : List.foldl (step cfg) s sched = s := by
  induction sched with
  | nil => rfl
  | cons c rest ih =>
    have hs : step cfg s c = s := by
      unfold step
      split
      · rfl
      · simp [h]
    rw [run_cons, hs, ih]

/-- Before `main` has moved no other goroutine exists, so only `main` changes the state. -/
theorem step_init (cfg : Config) (c : Sched) :
    step cfg Proc.init c = if c = .main then stepMain cfg Proc.init else Proc.init := by
  cases c <;> simp [step, Proc.init, stepWorker]

theorem run_init (cfg : Config) (sched : List Sched) (code : Nat)
    (h : (stepMain cfg Proc.init).pc = .exited code) :
    run cfg sched = if Sched.main ∈ sched then stepMain cfg Proc.init else Proc.init := by
  unfold run
  induction sched with
  | nil => simp
  | cons c rest ih =>
    rw [run_cons, step_init]
    by_cases hc : c = .main
    · simp [hc, foldl_step_exited cfg _ code h]
    · have hc2 : ¬ Sched.main = c := fun e => hc e.symm
      simp [hc, hc2, ih]

/-- With an error from `loadUrls` or an empty list, the first step of `main` logs one error
line and leaves through `os.Exit(1)`. -/
theorem stepMain_fatal (cfg : Config)
    (h : (loadUrls cfg.file).2 ≠ none ∨ (loadUrls cfg.file).1 = []) :
    stepMain cfg Proc.init =
      { Proc.init with urls := (loadUrls cfg.file).1, log := [.error], pc := .exited 1 } := by
  rcases hload : loadUrls cfg.file with ⟨us, _ | e⟩
  · rw [hload] at h
    have hus : us = [] := by simpa using h
    simp [stepMain, Proc.init, hload, hus]
  · simp [stepMain, Proc.init, hload]

theorem urlIndex_nonneg (len : Nat) (hlen : 0 < len) (idx : Int) (h : 0 ≤ idx) :
    urlIndex len idx = some (idx % (len : Int)).toNat := by
  have hl : (0 : Int) < len := by exact_mod_cast hlen
  have h1 : Int.tmod idx len = idx % (len : Int) := Int.tmod_eq_emod h (le_of_lt hl)
  have h2 : 0 ≤ idx % (len : Int) := Int.emod_nonneg _ (ne_of_gt hl)
  have h3 : idx % (len : Int) < len := Int.emod_lt_of_pos _ hl
  have hne : len ≠ 0 := Nat.pos_iff_ne_zero.mp hlen
  simp [urlIndex, hne, h1, h2, h3]

/-- The index expression of the worker loop can only panic on a negative `idx`. -/
theorem fetch_none_neg (us : List String) (hne : us ≠ []) (idx : Int)
    (h : (urlIndex us.length idx).bind (fun j => us[j]?) = none) : idx < 0 := by
  by_contra hcon
  have h0 : 0 ≤ idx := not_lt.mp hcon
  have hlen : 0 < us.length := List.length_pos.mpr hne
  have hl : (0 : Int) < us.length := by exact_mod_cast hlen
  rw [urlIndex_nonneg _ hlen idx h0] at h
  have h3 : idx % (us.length : Int) < us.length := Int.emod_lt_of_pos _ hl
  have h2 : 0 ≤ idx % (us.length : Int) := Int.emod_nonneg _ (ne_of_gt hl)
  have hj : (idx % (us.length : Int)).toNat < us.length := by omega
  simp [Option.bind, List.getElem?_eq_getElem hj] at h

/-- The three outcomes of a worker step: the goroutine does not exist, it completes one
iteration, or its index expression panics. -/
theorem stepWorker_cases (cfg : Config) (s : Proc) (id : Nat) :
    stepWorker cfg s id = s ∨
    (∃ idx url, s.workers[id]? = some idx ∧
      (urlIndex s.urls.length idx).bind (fun j => s.urls[j]?) = some url ∧
      stepWorker cfg s id =
        { s with currentUrl := url
                 workers := s.workers.set id (wrap64 (idx + cfg.threadCount)) }) ∨
    (∃ idx, s.workers[id]? = some idx ∧
      (urlIndex s.urls.length idx).bind (fun j => s.urls[j]?) = none ∧
      stepWorker cfg s id = { s with wg := s.wg - 1, panicked := true }) := by
  cases hget : s.workers[id]? with
  | none => left; simp [stepWorker, hget]
  | some idx =>
    cases hf : (urlIndex s.urls.length idx).bind (fun j => s.urls[j]?) with
    | some url => right; left; exact ⟨idx, url, rfl, hf, by simp [stepWorker, hget, hf]⟩
    | none => right; right; exact ⟨idx, rfl, hf, by simp [stepWorker, hget, hf]⟩

theorem runInv_init (us : List String) : RunInv us Proc.init := by
  simp [RunInv, Proc.init]

theorem runInv_step (cfg : Config) (us : List String)
    (hload : loadUrls cfg.file = (us, none)) (hne : us ≠ []) (hW : 1 ≤ cfg.threadCount)
    (s : Proc) (c : Sched) (hinv : RunInv us s) : RunInv us (step cfg s c) := by
  obtain ⟨hpan, hpc⟩ := hinv
  have hlen : us.length ≠ 0 := fun h => hne (List.length_eq_zero.mp h)
  by_cases hp : s.panicked = true
  · have : step cfg s c = s := by simp [step, hp]
    rw [this]; exact ⟨hpan, hpc⟩
  have hp2 : s.panicked = false := by simpa using hp
  -- the step of a worker goroutine, common to every position of `main`
  have hworker : ∀ id, (s.urls = us) →
      (s.panicked = false → 1 ≤ s.wg) →
      ((stepWorker cfg s id).panicked = true → ∃ idx ∈ (stepWorker cfg s id).workers, idx < 0) ∧
      (stepWorker cfg s id).pc = s.pc ∧ (stepWorker cfg s id).urls = s.urls ∧
      ((stepWorker cfg s id).panicked = false → 1 ≤ (stepWorker cfg s id).wg) := by
    intro id hurls hwg
    rcases stepWorker_cases cfg s id with h | ⟨idx, url, _, _, h⟩ | ⟨idx, hget, hf, h⟩
    · rw [h]; exact ⟨hpan, rfl, rfl, hwg⟩
    · rw [h]
      refine ⟨fun hx => absurd hx (by simp [hp2]), rfl, rfl, fun _ => hwg hp2⟩
    · rw [h]
      have hneg : idx < 0 := by
        rw [hurls] at hf
        exact fetch_none_neg us hne idx hf
      have hmem : idx ∈ s.workers := by
        obtain ⟨hlt, heq⟩ := List.getElem?_eq_some.mp hget
        exact heq ▸ List.getElem_mem _
      exact ⟨fun _ => ⟨idx, hmem, hneg⟩, rfl, rfl, fun hx => absurd hx (by simp)⟩
  rcases hpc with ⟨h1, _, h3, h4⟩ | ⟨h1, h2, _, h4, h5⟩ | ⟨⟨i, h1⟩, h2, h3⟩ | ⟨h1, h2, h3⟩
  · -- before `loadUrls`
    cases c with
    | main =>
      simp [RunInv, step, hp2, h1, stepMain, hload, hlen, h3, h4]
    | worker id =>
      simp [RunInv, step, hp2, h1, stepWorker, h3, h4]
    | monitor => simp [RunInv, step, hp2, h1, h3, h4]
  · -- the spawn loop before its first pass
    cases c with
    | main =>
      have h0 : (0 : Int) < cfg.threadCount := by omega
      simp [RunInv, step, hp2, h1, stepMain, h0, h2, h4, h5]
    | worker id =>
      simp [RunInv, step, hp2, h1, stepWorker, h2, h4, h5]
    | monitor => simp [RunInv, step, hp2, h1, h2, h4, h5]
  · -- the spawn loop after its first pass
    cases c with
    | main =>
      have hwg := h3 hp2
      simp only [step, hp2, h1, stepMain]
      by_cases hi : i < cfg.threadCount
      · simp [RunInv, hi, hp2, h2]; omega
      · simp [RunInv, hi, hp2, h2]; exact hwg
    | worker id =>
      obtain ⟨a, b, c2, d⟩ := hworker id h2 h3
      simp only [step, hp2, h1]
      exact ⟨a, Or.inr (Or.inr (Or.inl ⟨⟨i, b.trans h1⟩, c2.trans h2, d⟩))⟩
    | monitor =>
      simp only [step, hp2, h1]
      exact ⟨hpan, Or.inr (Or.inr (Or.inl ⟨⟨i, h1⟩, h2, h3⟩))⟩
  · -- blocked in `wg.Wait()`
    cases c with
    | main =>
      have hwg := h3 hp2
      have hwg0 : s.wg ≠ 0 := by omega
      simp only [step, hp2, h1, stepMain, hwg0]
      exact ⟨hpan, Or.inr (Or.inr (Or.inr ⟨h1, h2, h3⟩))⟩
    | worker id =>
      obtain ⟨a, b, c2, d⟩ := hworker id h2 h3
      simp only [step, hp2, h1]
      exact ⟨a, Or.inr (Or.inr (Or.inr ⟨b.trans h1, c2.trans h2, d⟩))⟩
    | monitor =>
      simp only [step, hp2, h1]
      exact ⟨hpan, Or.inr (Or.inr (Or.inr ⟨h1, h2, h3⟩))⟩

theorem runInv_run (cfg : Config) (us : List String)
    (hload : loadUrls cfg.file = (us, none)) (hne : us ≠ []) (hW : 1 ≤ cfg.threadCount)
    (sched : List Sched) : RunInv us (run cfg sched) := by
  have key : ∀ (l : List Sched) (s : Proc), RunInv us s →
      RunInv us (List.foldl (step cfg) s l) := by
    intro l
    induction l with
    | nil => intro s hs; exact hs
    | cons c rest ih =>
      intro s hs
      rw [run_cons]
      exact ih _ (runInv_step cfg us hload hne hW s c hs)
  exact key sched _ (runInv_init us)

/-- While no goroutine has panicked, the counter of the wait group is the number of started
workers: `wg.Done()` has not run, since the worker loop has no exit. -/
theorem wg_count_step (cfg : Config) (s : Proc) (c : Sched)
    (hinv : s.panicked = false → s.wg = s.workers.length) :
    (step cfg s c).panicked = false → (step cfg s c).wg = (step cfg s c).workers.length := by
  by_cases hp : s.panicked = true
  · have : step cfg s c = s := by simp [step, hp]
    rw [this]; exact hinv
  have hp2 : s.panicked = false := by simpa using hp
  have hwg := hinv hp2
  have hrest : ∀ t : Proc, (t = s ∨ t = stepMain cfg s ∨ ∃ id, t = stepWorker cfg s id) →
      t.panicked = false → t.wg = t.workers.length := by
    intro t ht
    rcases ht with rfl | rfl | ⟨id, rfl⟩
    · exact hinv
    · intro _
      unfold stepMain
      split
      · split
        · exact hwg
        · split <;> exact hwg
      · split
        · simp [hwg]
        · exact hwg
      · split <;> exact hwg
      · exact hwg
      · exact hwg
    · rcases stepWorker_cases cfg s id with h | ⟨idx, url, _, _, h⟩ | ⟨idx, _, _, h⟩
      · rw [h]; exact hinv
      · rw [h]; intro _; simp [hwg]
      · rw [h]; intro hx; simp at hx
  unfold step
  rw [if_neg hp]
  split
  · exact hinv
  · exact hinv
  · cases c with
    | main => exact hrest _ (Or.inr (Or.inl rfl))
    | worker id => exact hrest _ (Or.inr (Or.inr ⟨id, rfl⟩))
    | monitor => exact hinv

theorem wg_count_run (cfg : Config) (sched : List Sched) :
    (run cfg sched).panicked = false → (run cfg sched).wg = (run cfg sched).workers.length := by
  have key : ∀ (l : List Sched) (s : Proc),
      (s.panicked = false → s.wg = s.workers.length) →
      (List.foldl (step cfg) s l).panicked = false →
        (List.foldl (step cfg) s l).wg = (List.foldl (step cfg) s l).workers.length := by
    intro l
    induction l with
    | nil => intro s hs; exact hs
    | cons c rest ih =>
      intro s hs
      rw [run_cons]
      exact ih _ (wg_count_step cfg s c hs)
  exact key sched _ (fun _ => rfl)

/-! ## main: the claims -/

/-- C5 (fatal configuration). When every line of the URL file is blank after trimming,
`loadUrls` returns the empty list without an error; in that case, and whenever `loadUrls`
returns an error, the first step of `main` logs one error line and leaves through
`os.Exit(1)`, and under every schedule the monitor is never started, no worker is ever started
and the wait group is never touched. -/
theorem fatal_configuration (cfg : Config)
    (h : (∃ lines, cfg.file = .file lines none ∧ ∀ l ∈ lines, trimSpace l = "") ∨
      (loadUrls cfg.file).2 ≠ none) :
    ((∃ lines, cfg.file = .file lines none ∧ ∀ l ∈ lines, trimSpace l = "") →
        loadUrls cfg.file = ([], none)) ∧
      (run cfg [.main]).pc = .exited 1 ∧ (run cfg [.main]).log = [.error] ∧
      ∀ sched : List Sched,
        (run cfg sched).monitorOn = false ∧ (run cfg sched).workers = [] ∧
        (run cfg sched).wg = 0 ∧
        (Sched.main ∈ sched →
          (run cfg sched).pc = .exited 1 ∧ (run cfg sched).log = [.error]) ∧
        (Sched.main ∉ sched → run cfg sched = Proc.init) := by
  have hblank : (∃ lines, cfg.file = .file lines none ∧ ∀ l ∈ lines, trimSpace l = "") →
      loadUrls cfg.file = ([], none) := by
    rintro ⟨lines, hf, hl⟩
    rw [hf]
    simp [loadUrls, scanLoop_eq, loadSpec_blank lines hl]
  have hfatal : (loadUrls cfg.file).2 ≠ none ∨ (loadUrls cfg.file).1 = [] := by
    rcases h with hb | he
    · right; rw [hblank hb]
    · left; exact he
  have hstep := stepMain_fatal cfg hfatal
  have hpc : (stepMain cfg Proc.init).pc = .exited 1 := by rw [hstep]
  refine ⟨hblank, ?_, ?_, ?_⟩
  · rw [run_init cfg [.main] 1 hpc]; simp [hstep]
  · rw [run_init cfg [.main] 1 hpc]; simp [hstep]
  · intro sched
    rw [run_init cfg sched 1 hpc]
    by_cases hm : Sched.main ∈ sched
    · simp only [hm, if_true, hstep]
      simp [Proc.init]
    · simp [hm, Proc.init]

/-- Witness of C5: a URL file of three blank lines. -/
theorem fatal_configuration_witness :
    loadUrls (OpenResult.file ["", "   ", "\t"] none) = ([], none) ∧
      (run ⟨.file ["", "   ", "\t"] none, 200, 2, 5⟩ [.main]).pc = .exited 1 :=
  have h := fatal_configuration ⟨.file ["", "   ", "\t"] none, 200, 2, 5⟩
    (Or.inl ⟨["", "   ", "\t"], rfl, by decide⟩)
  ⟨h.1 ⟨["", "   ", "\t"], rfl, by decide⟩, h.2.1⟩

/-- C6 as stated fails: with the worker count 0 (`THREADS=0`) and a readable file holding one
URL, the spawn loop starts no worker, `wg.Wait()` is released at once and `main` returns. -/
theorem main_returns_counterexample :
    loadUrls (OpenResult.file ["http://a"] none) = (["http://a"], none) ∧
      (run ⟨.file ["http://a"] none, 200, 0, 5⟩ [.main, .main, .main]).pc = .returned ∧
      (run ⟨.file ["http://a"] none, 200, 0, 5⟩ [.main, .main, .main]).panicked = false := by
  decide

/-- C6 (amended). For every configuration with a worker count of at least 1 under which the
URL file is readable and the loaded list is non-empty, under every schedule `main` never
returns and never leaves through `os.Exit`; while no goroutine has panicked, the counter of the
wait group is the number of started workers (no worker has left its loop) and it is at least 1
whenever `main` is in `wg.Wait()`, so the wait is never released; and a goroutine can only have
panicked when the variable `idx` of a worker has become negative, that is after it overflowed
the `int` range. -/
theorem main_never_returns (cfg : Config) (us : List String)
    (hload : loadUrls cfg.file = (us, none)) (hne : us ≠ []) (hW : 1 ≤ cfg.threadCount)
    (sched : List Sched) :
    (run cfg sched).pc ≠ .returned ∧ (∀ code, (run cfg sched).pc ≠ .exited code) ∧
      ((run cfg sched).panicked = false →
        (run cfg sched).wg = (run cfg sched).workers.length) ∧
      ((run cfg sched).panicked = false → (run cfg sched).pc = .wait →
        1 ≤ (run cfg sched).wg) ∧
      ((run cfg sched).panicked = true → ∃ idx ∈ (run cfg sched).workers, idx < 0) := by
  obtain ⟨hpan, hpc⟩ := runInv_run cfg us hload hne hW sched
  refine ⟨?_, ?_, wg_count_run cfg sched, ?_, hpan⟩
  · intro hret
    rcases hpc with ⟨h1, _⟩ | ⟨h1, _⟩ | ⟨⟨i, h1⟩, _⟩ | ⟨h1, _⟩ <;> rw [h1] at hret <;> cases hret
  · intro code hret
    rcases hpc with ⟨h1, _⟩ | ⟨h1, _⟩ | ⟨⟨i, h1⟩, _⟩ | ⟨h1, _⟩ <;> rw [h1] at hret <;> cases hret
  · intro hp hw
    rcases hpc with ⟨h1, _⟩ | ⟨h1, _⟩ | ⟨⟨i, h1⟩, _⟩ | ⟨_, _, h3⟩
    · rw [h1] at hw; cases hw
    · rw [h1] at hw; cases hw
    · rw [h1] at hw; cases hw
    · exact h3 hp

/-- Witness of C6 (amended): three URLs and two workers; after `main` has started both workers
and entered `wg.Wait()`, and the workers have run some iterations, `main` is still waiting on a
counter of 2. -/
theorem main_never_returns_witness :
    (run ⟨.file ["a", "b", "c"] none, 200, 2, 5⟩
        [.main, .main, .worker 0, .main, .main, .worker 1, .worker 0, .main, .monitor]).pc
        ≠ .returned ∧
      (run ⟨.file ["a", "b", "c"] none, 200, 2, 5⟩
        [.main, .main, .worker 0, .main, .main, .worker 1, .worker 0, .main, .monitor]).wg
        = 2 :=
  ⟨(main_never_returns ⟨.file ["a", "b", "c"] none, 200, 2, 5⟩ ["a", "b", "c"]
      (by decide) (by decide) (by decide)
      [.main, .main, .worker 0, .main, .main, .worker 1, .worker 0, .main, .monitor]).1,
    by decide⟩

/-! ## The worker loop: lemmas -/

/-- As long as `idx` has not left the `int` range, the `k`-th iteration of a worker that
started at `idx` uses the index `(idx + k * threadCount) mod len`. -/
theorem nthIndex_fit (len : Nat) (hlen : 0 < len) (W : Nat) :
    ∀ (k idx : Nat), idx + k * W < 2^63 →
      nthIndex len (W : Int) k (idx : Int) = some ((idx + k * W) % len) := by
  intro k
  induction k with
  | zero =>
    intro idx _
    simp only [nthIndex, Nat.zero_mul, Nat.add_zero]
    rw [urlIndex_nonneg len hlen _ (Int.natCast_nonneg idx), ← Int.natCast_mod,
      Int.toNat_natCast]
  | succ k ih =>
    intro idx hfit
    have hmul : (k + 1) * W = k * W + W := Nat.succ_mul k W
    have hw : wrap64 ((idx : Int) + (W : Int)) = ((idx + W : Nat) : Int) := by
      rw [wrap64_id] <;> push_cast <;> omega
    simp only [nthIndex, urlIndex_nonneg len hlen _ (Int.natCast_nonneg idx), hw]
    have hsum : idx + W + k * W = idx + (k + 1) * W := by omega
    rw [ih (idx + W) (by omega), hsum]

/-- Inside one full round with `W ≤ len` no `idx` leaves the `int` range. -/
theorem round_fit (len W i k : Nat) (hWL : W ≤ len) (hfit : len < 2^62) (hi : i < W)
    (hk : k < roundLen len W) : i + k * W ≤ len + W - 1 ∧ i + k * W < 2^63 := by
  have h1 : (k + 1) * W ≤ roundLen len W * W := Nat.mul_le_mul_right W hk
  have h2 : roundLen len W * W ≤ len + W - 1 := Nat.div_mul_le_self _ _
  have h3 : (k + 1) * W = k * W + W := Nat.succ_mul k W
  omega

theorem mem_roundIndices (len W : Nat) (x : Option Nat) :
    x ∈ roundIndices len W ↔
      ∃ i, i < W ∧ ∃ k, k < roundLen len W ∧ nthIndex len (W : Int) k (i : Int) = x := by
  simp [roundIndices, List.mem_flatMap, List.mem_map, List.mem_range]

theorem length_roundIndices (len W : Nat) :
    (roundIndices len W).length = W * roundLen len W := by
  simp [roundIndices, List.length_flatMap, Function.comp_def]

/-- One full round has at least as many assignments as there are indices. -/
theorem le_round_total (len W : Nat) (hW : 1 ≤ W) : len ≤ W * roundLen len W := by
  have h1 := Nat.div_add_mod (len + W - 1) W
  have h2 := Nat.mod_lt (len + W - 1) (show 0 < W by omega)
  unfold roundLen
  omega

/-- When the worker count divides the length, no index is assigned twice in a round. -/
theorem nodup_roundIndices (len W : Nat) (hlen : 1 ≤ len) (hW : 1 ≤ W) (hWL : W ≤ len)
    (hfit : len < 2^62) (hdvd : W ∣ len) : (roundIndices len W).Nodup := by
  obtain ⟨m, hm⟩ := hdvd
  have hround : roundLen len W = m := by
    unfold roundLen
    rw [hm, Nat.add_sub_assoc hW, Nat.mul_comm W m, Nat.add_comm,
      Nat.add_mul_div_right _ _ (show 0 < W by omega),
      Nat.div_eq_of_lt (by omega), Nat.zero_add]
  -- inside the round the index is `i + k * W` itself
  have hidx : ∀ i k, i < W → k < roundLen len W →
      nthIndex len (W : Int) k (i : Int) = some (i + k * W) := by
    intro i k hi hk
    have hf := round_fit len W i k hWL hfit hi hk
    rw [nthIndex_fit len (by omega) W k i hf.2]
    have h1 : (k + 1) * W ≤ m * W := Nat.mul_le_mul_right W (by omega)
    have h3 : (k + 1) * W = k * W + W := Nat.succ_mul k W
    have h4 : m * W = len := by rw [hm, Nat.mul_comm]
    rw [Nat.mod_eq_of_lt (by omega)]
  unfold roundIndices
  rw [List.nodup_flatMap]
  constructor
  · intro i hi
    rw [List.mem_range] at hi
    apply List.Nodup.map_on _ (List.nodup_range _)
    intro k hk k2 hk2 heq
    rw [List.mem_range] at hk hk2
    rw [hidx i k hi hk, hidx i k2 hi hk2] at heq
    have h : k * W = k2 * W := by
      have := Option.some.inj heq
      omega
    exact Nat.eq_of_mul_eq_mul_right (show 0 < W by omega) h
  · apply List.Nodup.pairwise_of_forall_ne (List.nodup_range _)
    intro i hi i2 hi2 hne
    rw [List.mem_range] at hi hi2
    intro x hx hx2
    rw [List.mem_map] at hx hx2
    obtain ⟨k, hk, rfl⟩ := hx
    obtain ⟨k2, hk2, heq⟩ := hx2
    rw [List.mem_range] at hk hk2
    rw [hidx i k hi hk, hidx i2 k2 hi2 hk2] at heq
    have h := Option.some.inj heq
    have ha : (i + k * W) % W = i := by
      rw [Nat.add_mul_mod_self_right, Nat.mod_eq_of_lt hi]
    have hb : (i2 + k2 * W) % W = i2 := by
      rw [Nat.add_mul_mod_self_right, Nat.mod_eq_of_lt hi2]
    rw [h] at hb
    exact hne (ha.symm.trans hb ▸ rfl)

/-! ## The worker loop: the claims -/

/-- C2 as stated fails: with three URLs and the worker count `2^62`, worker 0 reaches its
iteration 2 with `idx` wrapped to `-2^63`; the remainder is `-2`, the index expression panics
and no URL is passed to `download`, while the claimed URL is `urls[2^63 mod 3] = urls[2]`. -/
theorem worker_sequence_counterexample :
    nthFetch ["a", "b", "c"] (2^62) 2 0 = none ∧
      ["a", "b", "c"][(0 + 2 * 2^62) % 3]? = some "c" ∧
      wrap64 (wrap64 (0 + 2^62) + 2^62) = -2^63 ∧ Int.tmod (-2^63) 3 = -2 := by
  decide

/-- C2 (amended). For every non-empty URL list of length `L`, worker count `W ≥ 1`, worker id
`i < W` and iteration number `k` such that `i + k * W` is still within the `int` range, the URL
the worker loop passes to `download` on its `k`-th iteration is `urls[(i + k * W) mod L]`. -/
theorem worker_sequence (urls : List String) (W i k : Nat) (hne : urls ≠ []) (_hW : 1 ≤ W)
    (_hi : i < W) (hfit : i + k * W < 2^63) :
    nthFetch urls (W : Int) k (i : Int) = urls[(i + k * W) % urls.length]? ∧
      (nthFetch urls (W : Int) k (i : Int)).isSome = true := by
  have hlen : 0 < urls.length := List.length_pos.mpr hne
  have hlt : (i + k * W) % urls.length < urls.length := Nat.mod_lt _ hlen
  have h : nthFetch urls (W : Int) k (i : Int) = urls[(i + k * W) % urls.length]? := by
    simp [nthFetch, nthIndex_fit urls.length hlen W k i hfit]
  refine ⟨h, ?_⟩
  rw [h, List.getElem?_eq_getElem hlt]
  rfl

/-- Witness of C2 (amended), the example of the specification: with the three URLs
`a, b, c` and two workers, worker 0 fetches the indices 0, 2, 1, 0, 2, 1 and worker 1 the
indices 1, 0, 2, 1, 0, 2. -/
theorem worker_sequence_witness :
    nthFetch ["a", "b", "c"] 2 4 1 = some "a" ∧
      (List.range 6).map (fun k => nthFetch ["a", "b", "c"] 2 k 0)
        = [some "a", some "c", some "b", some "a", some "c", some "b"] ∧
      (List.range 6).map (fun k => nthFetch ["a", "b", "c"] 2 k 1)
        = [some "b", some "a", some "c", some "b", some "a", some "c"] ∧
      (List.range 6).map (fun k => nthIndex 3 2 k 0)
        = [some 0, some 2, some 1, some 0, some 2, some 1] ∧
      (List.range 6).map (fun k => nthIndex 3 2 k 1)
        = [some 1, some 0, some 2, some 1, some 0, some 2] :=
  ⟨(worker_sequence ["a", "b", "c"] 2 1 4 (by decide) (by decide) (by decide) (by decide)).1,
    by decide, by decide, by decide, by decide⟩

/-- C3 as stated fails: with three URLs and two workers one full round has two iterations,
worker 0 is assigned the indices 0 and 2, worker 1 the indices 1 and 0, and index 0 is assigned
twice. -/
theorem round_coverage_counterexample :
    roundLen 3 2 = 2 ∧ roundIndices 3 2 = [some 0, some 2, some 1, some 0] ∧
      timesAssigned 3 2 0 = 2 := by
  decide

/-- C3 (amended). For every URL list length `L ≥ 1` (within the `int` range, `L < 2^62`) and
worker count `W` with `1 ≤ W ≤ L`, the `W * ceil(L / W)` indices assigned during one full
round all lie in `{0, ..., L-1}` and cover that set: every index is assigned at least once.
Every index is assigned exactly once if and only if `W` divides `L`. -/
theorem round_coverage (len W : Nat) (hlen : 1 ≤ len) (hW : 1 ≤ W) (hWL : W ≤ len)
    (hfit : len < 2^62) :
    (∀ j, j < len → some j ∈ roundIndices len W) ∧
      (∀ x ∈ roundIndices len W, ∃ j, j < len ∧ x = some j) ∧
      (roundIndices len W).length = W * roundLen len W ∧
      ((∀ j, j < len → timesAssigned len W j = 1) ↔ W ∣ len) := by
  have hWpos : 0 < W := by omega
  have hcount : ∀ x : Option Nat, (roundIndices len W).countP (fun y => decide (y = x)) =
      @List.count _ instBEqOfDecidableEq x (roundIndices len W) := fun _ => rfl
  have hcover : ∀ j, j < len → some j ∈ roundIndices len W := by
    intro j hj
    rw [mem_roundIndices]
    have hk : j / W < roundLen len W := by
      have h1 : j / W ≤ (len - 1) / W := Nat.div_le_div_right (by omega)
      have h2 : roundLen len W = (len - 1) / W + 1 := by
        unfold roundLen
        rw [show len + W - 1 = len - 1 + W by omega, Nat.add_div_right _ hWpos]
      omega
    have hi : j % W < W := Nat.mod_lt _ hWpos
    refine ⟨j % W, hi, j / W, hk, ?_⟩
    have hf := round_fit len W (j % W) (j / W) hWL hfit hi hk
    rw [nthIndex_fit len (by omega) W _ _ hf.2]
    have hj2 : j % W + j / W * W = j := by
      rw [Nat.mul_comm]; exact Nat.mod_add_div j W
    rw [hj2, Nat.mod_eq_of_lt hj]
  have hrange : ∀ x ∈ roundIndices len W, ∃ j, j < len ∧ x = some j := by
    intro x hx
    rw [mem_roundIndices] at hx
    obtain ⟨i, hi, k, hk, rfl⟩ := hx
    have hf := round_fit len W i k hWL hfit hi hk
    rw [nthIndex_fit len (by omega) W _ _ hf.2]
    exact ⟨_, Nat.mod_lt _ (by omega), rfl⟩
  refine ⟨hcover, hrange, length_roundIndices len W, ?_, ?_⟩
  · intro hone
    -- all counts are one: the list has no duplicate and fits into the `len` indices
    have hnodup : (roundIndices len W).Nodup := by
      rw [List.nodup_iff_count_le_one]
      intro x
      by_cases hx : x ∈ roundIndices len W
      · obtain ⟨j, hj, rfl⟩ := hrange x hx
        rw [← hcount]
        exact le_of_eq (hone j hj)
      · have hzero : (roundIndices len W).countP (fun y => decide (y = x)) = 0 := by
          rw [List.countP_eq_zero]
          intro a ha
          simp only [decide_eq_true_eq]
          exact fun h => hx (h ▸ ha)
        rw [← hcount, hzero]
        omega
    have hsub : roundIndices len W ⊆ (List.range len).map some := by
      intro x hx
      obtain ⟨j, hj, rfl⟩ := hrange x hx
      exact List.mem_map.mpr ⟨j, List.mem_range.mpr hj, rfl⟩
    have hle := (List.subperm_of_subset hnodup hsub).length_le
    rw [length_roundIndices, List.length_map, List.length_range] at hle
    have hge := le_round_total len W hW
    exact ⟨roundLen len W, by omega⟩
  · intro hdvd j hj
    unfold timesAssigned
    rw [hcount]
    exact List.count_eq_one_of_mem (nodup_roundIndices len W hlen hW hWL hfit hdvd)
      (hcover j hj)

/-- Witness of C3 (amended): four URLs and two workers, where 2 divides 4 and every index is
assigned exactly once in the round. -/
theorem round_coverage_witness :
    (∀ j, j < 4 → timesAssigned 4 2 j = 1) ∧
      roundIndices 4 2 = [some 0, some 2, some 1, some 3] :=
  ⟨(round_coverage 4 2 (by decide) (by decide) (by decide) (by decide)).2.2.2.mpr
      (by decide), by decide⟩

/-! ## float64: lemmas -/

/-- Rounding to the nearest integer moves a value by at most one half. -/
theorem roundEven_sub_le (y : ℚ) : |(roundEven y : ℚ) - y| ≤ 1 / 2 := by
  have h1 : (⌊y⌋ : ℚ) ≤ y := Int.floor_le y
  have h2 : y < ⌊y⌋ + 1 := Int.lt_floor_add_one y
  unfold roundEven
  simp only
  rw [abs_le]
  split
  · constructor <;> linarith
  · split
    · push_cast; constructor <;> linarith
    · have hd : y - ⌊y⌋ = 1 / 2 := by linarith
      split
      · constructor <;> linarith
      · push_cast; constructor <;> linarith

/-- The integer strictly within one half of a value is its rounding. -/
theorem roundEven_eq (y : ℚ) (m : Int) (h1 : (m : ℚ) - 1 / 2 < y) (h2 : y < m + 1 / 2) :
    roundEven y = m := by
  have hn := roundEven_sub_le y
  rw [abs_le] at hn
  have ha : ((roundEven y - m : Int) : ℚ) < 1 := by push_cast; linarith
  have hb : (-1 : ℚ) < ((roundEven y - m : Int) : ℚ) := by push_cast; linarith
  have ha2 : roundEven y - m < 1 := by exact_mod_cast ha
  have hb2 : -1 < roundEven y - m := by exact_mod_cast hb
  omega

/-- The rounding of a value whose binary exponent `e` is in the normal range: the value is
scaled by the unit in the last place `2^(e-52)`, rounded to an integer and scaled back. -/
theorem round_of_bounds (x : ℚ) (e : Int) (h1 : (2 : ℚ) ^ e ≤ |x|) (h2 : |x| < (2 : ℚ) ^ (e + 1))
    (he : -1022 ≤ e) (he2 : e ≤ 1022) :
    F64.round x = F64.fin ((roundEven (x / 2 ^ (e - 52)) : ℚ) * 2 ^ (e - 52)) := by
  have hpos : (0 : ℚ) < 2 ^ e := zpow_pos (by norm_num) e
  have hx : 0 < |x| := lt_of_lt_of_le hpos h1
  have hx0 : x ≠ 0 := abs_pos.mp hx
  have hlog : Int.log 2 |x| = e := by
    have ha : e ≤ Int.log 2 |x| := by
      rw [← Int.zpow_le_iff_le_log (by norm_num) hx]
      exact_mod_cast h1
    have hb : Int.log 2 |x| < e + 1 := by
      rw [← Int.lt_zpow_iff_log_lt (by norm_num) hx]
      exact_mod_cast h2
    omega
  have hu : (0 : ℚ) < 2 ^ (e - 52) := zpow_pos (by norm_num) _
  have hnear := roundEven_sub_le (x / 2 ^ (e - 52))
  -- the rounded value stays below `2^(e+2)`, hence below `2^1024`
  have hr : |(roundEven (x / 2 ^ (e - 52)) : ℚ) * 2 ^ (e - 52)| < 2 ^ (1024 : ℤ) := by
    have hsplit : (roundEven (x / 2 ^ (e - 52)) : ℚ) * 2 ^ (e - 52)
        = x + ((roundEven (x / 2 ^ (e - 52)) : ℚ) - x / 2 ^ (e - 52)) * 2 ^ (e - 52) := by
      field_simp
    have herr : |((roundEven (x / 2 ^ (e - 52)) : ℚ) - x / 2 ^ (e - 52)) * 2 ^ (e - 52)|
        ≤ 1 / 2 * 2 ^ (e - 52) := by
      rw [abs_mul, abs_of_pos hu]
      exact mul_le_mul_of_nonneg_right hnear (le_of_lt hu)
    have hule : (2 : ℚ) ^ (e - 52) ≤ 2 ^ (e + 1) :=
      zpow_le_zpow_right₀ (by norm_num) (by omega)
    have htop : (2 : ℚ) ^ (e + 1) * 2 ≤ 2 ^ (1024 : ℤ) := by
      have : (2 : ℚ) ^ (e + 1) * 2 = 2 ^ (e + 2) := by
        rw [show e + 2 = (e + 1) + 1 by ring, zpow_add₀ (by norm_num : (2 : ℚ) ≠ 0) (e + 1) 1,
          zpow_one]
      rw [this]
      exact zpow_le_zpow_right₀ (by norm_num) (by omega)
    rw [hsplit]
    calc |x + ((roundEven (x / 2 ^ (e - 52)) : ℚ) - x / 2 ^ (e - 52)) * 2 ^ (e - 52)|
        ≤ |x| + |((roundEven (x / 2 ^ (e - 52)) : ℚ) - x / 2 ^ (e - 52)) * 2 ^ (e - 52)| :=
          abs_add _ _
      _ < 2 ^ (e + 1) + 2 ^ (e + 1) := by
          have hpos2 : (0 : ℚ) < 2 ^ (e + 1) := zpow_pos (by norm_num) _
          linarith
      _ ≤ 2 ^ (1024 : ℤ) := by linarith
  unfold F64.round
  rw [if_neg hx0]
  simp only [hlog, max_eq_left he]
  rw [if_neg (not_le.mpr hr)]

theorem round_zero : F64.round 0 = F64.fin 0 := by
  simp [F64.round]

theorem relC_pos : (0 : ℚ) < relC := by unfold relC; positivity

theorem relC_pow_pos (k : Nat) : (0 : ℚ) < relC ^ k := pow_pos relC_pos k

/-- Rounding a positive value inside the normal range changes it by a factor of at most
`relC`. -/
theorem near_round (x : ℚ) (hlo : 1 / 2 ^ 100 ≤ x) (hhi : x ≤ 2 ^ 100) :
    ∃ r, F64.round x = F64.fin r ∧ Near 1 x r := by
  have hx : 0 < x := lt_of_lt_of_le (by positivity) hlo
  have habs : |x| = x := abs_of_pos hx
  have hb1 : (2 : ℚ) ^ Int.log 2 x ≤ x := by
    have := Int.zpow_log_le_self (b := 2) (r := x) (by norm_num) hx
    exact_mod_cast this
  have hb2 : x < (2 : ℚ) ^ (Int.log 2 x + 1) := by
    have := Int.lt_zpow_succ_log_self (b := 2) (by norm_num) x
    exact_mod_cast this
  have he1 : -1022 ≤ Int.log 2 x := by
    have h : (-100 : ℤ) ≤ Int.log 2 x := by
      rw [← Int.zpow_le_iff_le_log (by norm_num) hx]
      have : ((2 : ℕ) : ℚ) ^ (-100 : ℤ) = 1 / 2 ^ 100 := by
        simp only [zpow_neg, zpow_ofNat, Nat.cast_ofNat, one_div]
      rw [this]; exact hlo
    omega
  have he2 : Int.log 2 x ≤ 1022 := by
    have h : Int.log 2 x < 101 := by
      rw [← Int.lt_zpow_iff_log_lt (by norm_num) hx]
      have : ((2 : ℕ) : ℚ) ^ (101 : ℤ) = 2 ^ 101 := by
        simp only [zpow_ofNat, Nat.cast_ofNat]
      rw [this]
      calc x ≤ 2 ^ 100 := hhi
        _ < 2 ^ 101 := by norm_num
    omega
  refine ⟨_, round_of_bounds x (Int.log 2 x) (by rw [habs]; exact hb1)
    (by rw [habs]; exact hb2) he1 he2, ?_⟩
  have hu : (0 : ℚ) < 2 ^ (Int.log 2 x - 52) := zpow_pos (by norm_num) _
  have hnear := roundEven_sub_le (x / 2 ^ (Int.log 2 x - 52))
  rw [abs_le] at hnear
  have hule : (2 : ℚ) ^ (Int.log 2 x - 52) ≤ x / 2 ^ 52 := by
    rw [zpow_sub₀ (by norm_num : (2 : ℚ) ≠ 0)]
    have : (2 : ℚ) ^ (52 : ℤ) = 2 ^ 52 := by norm_cast
    rw [this]
    exact div_le_div_of_nonneg_right hb1 (by positivity)
  -- the error is at most half a unit in the last place
  have hlow : x - 1 / 2 * 2 ^ (Int.log 2 x - 52)
      ≤ (roundEven (x / 2 ^ (Int.log 2 x - 52)) : ℚ) * 2 ^ (Int.log 2 x - 52) := by
    have := mul_le_mul_of_nonneg_right hnear.1 (le_of_lt hu)
    have hcancel : x / 2 ^ (Int.log 2 x - 52) * 2 ^ (Int.log 2 x - 52) = x := by
      field_simp
    nlinarith
  have hupp : (roundEven (x / 2 ^ (Int.log 2 x - 52)) : ℚ) * 2 ^ (Int.log 2 x - 52)
      ≤ x + 1 / 2 * 2 ^ (Int.log 2 x - 52) := by
    have := mul_le_mul_of_nonneg_right hnear.2 (le_of_lt hu)
    have hcancel : x / 2 ^ (Int.log 2 x - 52) * 2 ^ (Int.log 2 x - 52) = x := by
      field_simp
    nlinarith
  unfold Near
  rw [pow_one]
  constructor
  · rw [div_le_iff₀ relC_pos]
    unfold relC
    nlinarith
  · unfold relC
    nlinarith


/-- The rounding of a positive value, computed from its binary exponent `e` and the integer
`m` nearest to the value scaled by the unit in the last place. -/
theorem round_eval (x r : ℚ) (e m : Int)
    (h : (2 : ℚ) ^ e ≤ x ∧ x < (2 : ℚ) ^ (e + 1) ∧ -1022 ≤ e ∧ e ≤ 1022 ∧
      (m : ℚ) - 1 / 2 < x / 2 ^ (e - 52) ∧ x / 2 ^ (e - 52) < m + 1 / 2 ∧
      r = (m : ℚ) * 2 ^ (e - 52)) :
    F64.round x = F64.fin r := by
  obtain ⟨h1, h2, he, he2, hm1, hm2, hr⟩ := h
  have hx : 0 < x := lt_of_lt_of_le (zpow_pos (by norm_num) e) h1
  have habs : |x| = x := abs_of_pos hx
  rw [round_of_bounds x e (by rw [habs]; exact h1) (by rw [habs]; exact h2) he he2,
    roundEven_eq _ m hm1 hm2, hr]

theorem near_refl (x : ℚ) : Near 0 x x := by
  simp [Near]

theorem near_trans (j k : Nat) (x y r : ℚ) (h1 : Near j x y) (h2 : Near k y r) :
    Near (j + k) x r := by
  have hj := relC_pow_pos j
  have hk := relC_pow_pos k
  unfold Near at *
  rw [pow_add]
  constructor
  · calc x / (relC ^ j * relC ^ k) = x / relC ^ j / relC ^ k := by rw [div_div]
      _ ≤ y / relC ^ k := div_le_div_of_nonneg_right h1.1 (le_of_lt hk)
      _ ≤ r := h2.1
  · calc r ≤ y * relC ^ k := h2.2
      _ ≤ x * relC ^ j * relC ^ k := mul_le_mul_of_nonneg_right h1.2 (le_of_lt hk)
      _ = x * (relC ^ j * relC ^ k) := by ring

theorem near_pos (k : Nat) (x r : ℚ) (h : Near k x r) (hx : 0 < x) : 0 < r :=
  lt_of_lt_of_le (div_pos hx (relC_pow_pos k)) h.1

theorem near_div (j k : Nat) (a b a2 b2 : ℚ) (ha : Near j a a2) (hb : Near k b b2)
    (ha0 : 0 < a) (hb0 : 0 < b) : Near (j + k) (a / b) (a2 / b2) := by
  have hj := relC_pow_pos j
  have hk := relC_pow_pos k
  have hb2 : 0 < b2 := near_pos k b b2 hb hb0
  have ha2 : 0 < a2 := near_pos j a a2 ha ha0
  unfold Near at *
  rw [pow_add]
  constructor
  · calc a / b / (relC ^ j * relC ^ k) = a / relC ^ j / (b * relC ^ k) := by
          rw [div_div, div_div]; congr 1; ring
      _ ≤ a2 / b2 := div_le_div₀ (le_of_lt ha2) ha.1 hb2 hb.2
  · calc a2 / b2 ≤ a * relC ^ j / (b / relC ^ k) :=
          div_le_div₀ (by positivity) ha.2 (div_pos hb0 hk) hb.1
      _ = a / b * (relC ^ j * relC ^ k) := by field_simp; ring

theorem near_div_const (k : Nat) (x y d : ℚ) (h : Near k x y) (hd : 0 < d) :
    Near k (x / d) (y / d) := by
  have hk := relC_pow_pos k
  unfold Near at *
  constructor
  · calc x / d / relC ^ k = x / relC ^ k / d := by rw [div_right_comm]
      _ ≤ y / d := div_le_div_of_nonneg_right h.1 (le_of_lt hd)
  · calc y / d ≤ x * relC ^ k / d := div_le_div_of_nonneg_right h.2 (le_of_lt hd)
      _ = x / d * relC ^ k := by ring

theorem relC_pow_le (k : Nat) (hk : k ≤ 5) : relC ^ k ≤ 1 + 1 / 2 ^ 49 := by
  have h1 : (1 : ℚ) ≤ relC := by unfold relC; norm_num
  calc relC ^ k ≤ relC ^ 5 := pow_le_pow_right₀ h1 hk
    _ ≤ 1 + 1 / 2 ^ 49 := by unfold relC; norm_num

/-- After at most five roundings a positive value is within the relative error `2^-49`. -/
theorem near_abs (k : Nat) (x r : ℚ) (h : Near k x r) (hk : k ≤ 5) (hx : 0 ≤ x) :
    |r - x| ≤ x / 2 ^ 49 := by
  have hc := relC_pow_le k hk
  have hpos := relC_pow_pos k
  obtain ⟨hlo, hhi⟩ := h
  rw [div_le_iff₀ hpos] at hlo
  rw [abs_le]
  constructor
  · have h1 : x ≤ r * (1 + 1 / 2 ^ 49) :=
      le_trans hlo (mul_le_mul_of_nonneg_left hc (by
        by_contra hneg
        push_neg at hneg
        nlinarith))
    nlinarith
  · have h2 : r ≤ x * (1 + 1 / 2 ^ 49) := le_trans hhi (mul_le_mul_of_nonneg_left hc hx)
    nlinarith

/-- A value after at most five roundings stays within a factor 2. -/
theorem near_range (k : Nat) (x r : ℚ) (h : Near k x r) (hk : k ≤ 5) (hx : 0 ≤ x) :
    x / 2 ≤ r ∧ r ≤ 2 * x := by
  have ha := near_abs k x r h hk hx
  rw [abs_le] at ha
  constructor <;> nlinarith [ha.1, ha.2]

/-- One more rounding of a value that is already `k` roundings away from `x`. -/
theorem near_round_step (k : Nat) (x y : ℚ) (hk : k ≤ 4) (hx1 : 1 / 2 ^ 90 ≤ x)
    (hx2 : x ≤ 2 ^ 90) (h : Near k x y) :
    ∃ r, F64.round y = F64.fin r ∧ Near (k + 1) x r := by
  have hx0 : 0 < x := lt_of_lt_of_le (by positivity) hx1
  have hr := near_range k x y h (by omega) (le_of_lt hx0)
  obtain ⟨r, hr1, hr2⟩ := near_round y (by nlinarith [hr.1]) (by nlinarith [hr.2])
  exact ⟨r, hr1, near_trans k 1 x y r h hr2⟩



/-! ## monitor: lemmas and claims -/

theorem subU64_wrap (a b : Nat) (hb : b < 2^64) (h : a < b) : subU64 a b = a + 2^64 - b := by
  unfold subU64; omega

theorem subU64_lt (a b : Nat) : subU64 a b < 2^64 := by
  unfold subU64; omega

/-- The speed expression, evaluated rounding by rounding. -/
theorem netSpeed_eval (current last : Nat) (T : Int) (d t q1 q2 q3 : ℚ)
    (h1 : F64.round (subU64 current last : ℚ) = F64.fin d)
    (h2 : F64.round (T : ℚ) = F64.fin t) (ht : t ≠ 0)
    (h3 : F64.round (d / t) = F64.fin q1) (h4 : F64.round (q1 / 1024) = F64.fin q2)
    (h5 : F64.round (q2 / 1024) = F64.fin q3) :
    netSpeed current last T = F64.fin q3 := by
  simp [netSpeed, F64.ofNat, F64.ofInt, F64.div, h1, h2, ht, h3, h4, h5]

/-- With an interval inside the `int` range and above zero the speed is finite, and it is the
exact quotient up to five roundings. -/
theorem netSpeed_near (current last : Nat) (T : Int) (hT : 0 < T) (hT2 : T < 2^63) :
    ∃ r, netSpeed current last T = F64.fin r ∧ (0 < subU64 current last → 0 < r) ∧
      |r - (subU64 current last : ℚ) / (T : ℚ) / 1024 / 1024|
        ≤ (subU64 current last : ℚ) / (T : ℚ) / 1024 / 1024 / 2 ^ 49 := by
  have hTq : (1 : ℚ) ≤ (T : ℚ) := by exact_mod_cast hT
  have hTq2 : (T : ℚ) ≤ 2 ^ 63 := by
    have : T ≤ 2 ^ 63 := le_of_lt hT2
    exact_mod_cast this
  obtain ⟨t, ht1, ht2⟩ := near_round_step 0 (T : ℚ) (T : ℚ) (by omega)
    (le_trans (by norm_num) hTq) (le_trans hTq2 (by norm_num)) (near_refl _)
  have ht0 : 0 < t := near_pos _ _ _ ht2 (by linarith)
  by_cases hd : subU64 current last = 0
  · refine ⟨0, ?_, fun h => absurd hd (Nat.pos_iff_ne_zero.mp h), by simp [hd]⟩
    refine netSpeed_eval current last T 0 t 0 0 0 ?_ ht1 (ne_of_gt ht0) ?_ ?_ ?_
    · rw [hd]; simpa using round_zero
    · simpa using round_zero
    · simpa using round_zero
    · simpa using round_zero
  have hdpos : 0 < subU64 current last := Nat.pos_iff_ne_zero.mpr hd
  have hd1 : (1 : ℚ) ≤ (subU64 current last : ℚ) := by exact_mod_cast hdpos
  have hd2 : (subU64 current last : ℚ) ≤ 2 ^ 64 := by
    have := le_of_lt (subU64_lt current last)
    exact_mod_cast this
  have hd0 : (0 : ℚ) < (subU64 current last : ℚ) := by linarith
  have hT0 : (0 : ℚ) < (T : ℚ) := by linarith
  -- bounds on the exact quotient
  have hq1 : (1 : ℚ) / 2 ^ 63 ≤ (subU64 current last : ℚ) / (T : ℚ) := by
    rw [div_le_div_iff₀ (by positivity) hT0]
    nlinarith
  have hq2 : (subU64 current last : ℚ) / (T : ℚ) ≤ 2 ^ 64 := by
    rw [div_le_iff₀ hT0]
    nlinarith
  obtain ⟨d, hd3, hd4⟩ := near_round_step 0 _ _ (by omega)
    (le_trans (by norm_num) hd1) (le_trans hd2 (by norm_num)) (near_refl (subU64 current last : ℚ))
  have hdiv : Near 2 ((subU64 current last : ℚ) / (T : ℚ)) (d / t) :=
    near_div 1 1 _ _ _ _ hd4 ht2 hd0 hT0
  obtain ⟨q1, ha1, ha2⟩ := near_round_step 2 _ _ (by omega)
    (le_trans (by norm_num) hq1) (le_trans hq2 (by norm_num)) hdiv
  have hb0 : Near 3 ((subU64 current last : ℚ) / (T : ℚ) / 1024) (q1 / 1024) :=
    near_div_const 3 _ _ 1024 ha2 (by norm_num)
  obtain ⟨q2, hb1, hb2⟩ := near_round_step 3 _ _ (by omega)
    (by rw [le_div_iff₀ (by norm_num)]; nlinarith)
    (by rw [div_le_iff₀ (by norm_num)]; nlinarith) hb0
  have hc0 : Near 4 ((subU64 current last : ℚ) / (T : ℚ) / 1024 / 1024) (q2 / 1024) :=
    near_div_const 4 _ _ 1024 hb2 (by norm_num)
  obtain ⟨q3, hc1, hc2⟩ := near_round_step 4 _ _ (by omega)
    (by rw [le_div_iff₀ (by norm_num), le_div_iff₀ (by norm_num)]; nlinarith)
    (by rw [div_le_iff₀ (by norm_num), div_le_iff₀ (by norm_num)]; nlinarith) hc0
  have hexact : (0 : ℚ) < (subU64 current last : ℚ) / (T : ℚ) / 1024 / 1024 := by positivity
  exact ⟨q3, netSpeed_eval current last T d t q1 q2 q3 hd3 ht1 (ne_of_gt ht0) ha1 hb1 hc1,
    fun _ => near_pos _ _ _ hc2 hexact, near_abs 5 _ _ hc2 (le_refl _) (le_of_lt hexact)⟩



/-- C7 as stated fails: when both counters fall from `4194304` to `0` between two snapshots
taken 4 seconds apart, the `uint64` differences wrap to `2^64 - 4194304` and `monitor` computes
the rates `4398046511103` MB/s (every float64 step is exact here), not zero. -/
theorem rate_clamp_counterexample :
    (0 : Nat) < 4194304 ∧
      (monitorTick 4 ⟨4194304, 4194304⟩ ⟨0, 0⟩).1 = F64.fin 4398046511103 ∧
      (monitorTick 4 ⟨4194304, 4194304⟩ ⟨0, 0⟩).2.1 = F64.fin 4398046511103 ∧
      F64.fin 4398046511103 ≠ F64.fin 0 := by
  have h : netSpeed 0 4194304 4 = F64.fin 4398046511103 :=
    netSpeed_eval 0 4194304 4 18446744073705357312 4
    4611686018426339328
    4503599627369472
    4398046511103
    (by rw [show subU64 0 4194304 = 18446744073705357312 by decide]
        exact round_eval _ _ 63 9007199254738944 (by norm_num))
    (round_eval _ _ 2 4503599627370496 (by norm_num)) (by norm_num)
    (round_eval _ _ 61 9007199254738944 (by norm_num))
    (round_eval _ _ 51 9007199254738944 (by norm_num))
    (round_eval _ _ 41 9007199254738944 (by norm_num))
  refine ⟨by decide, h, h, ?_⟩
  intro h0
  injection h0 with h0
  norm_num at h0

/-- C7 (amended). For every pair of consecutive snapshots and every positive interval `T`
(within the `int` range), when the received (respectively sent) counter of the current snapshot
is smaller than that of the previous one, the rate `monitor` computes for that direction is a
finite, strictly positive number, never zero and never negative: it is the float64 evaluation
of the wrapped `uint64` difference `current + 2^64 - previous` divided by `T` and by
`1024 * 1024` (the rate being in MB/s), within the relative error `2^-49` of that quotient. -/
theorem rate_wraps (T : Int) (hT : 0 < T) (hT2 : T < 2^63) (last cur : NetStats)
    (hr : last.recvBytes < 2^64) (hs : last.sendBytes < 2^64) :
    (cur.recvBytes < last.recvBytes →
        ∃ r, (monitorTick T last cur).1 = F64.fin r ∧ 0 < r ∧
          |r - ((cur.recvBytes + 2^64 - last.recvBytes : Nat) : ℚ) / T / 1024 / 1024|
            ≤ ((cur.recvBytes + 2^64 - last.recvBytes : Nat) : ℚ) / T / 1024 / 1024 / 2 ^ 49) ∧
      (cur.sendBytes < last.sendBytes →
        ∃ r, (monitorTick T last cur).2.1 = F64.fin r ∧ 0 < r ∧
          |r - ((cur.sendBytes + 2^64 - last.sendBytes : Nat) : ℚ) / T / 1024 / 1024|
            ≤ ((cur.sendBytes + 2^64 - last.sendBytes : Nat) : ℚ) / T / 1024 / 1024 / 2 ^ 49) := by
  constructor
  · intro h
    obtain ⟨r, h1, h2, h3⟩ := netSpeed_near cur.recvBytes last.recvBytes T hT hT2
    rw [subU64_wrap _ _ hr h] at h2 h3
    exact ⟨r, h1, h2 (by omega), h3⟩
  · intro h
    obtain ⟨r, h1, h2, h3⟩ := netSpeed_near cur.sendBytes last.sendBytes T hT hT2
    rw [subU64_wrap _ _ hs h] at h2 h3
    exact ⟨r, h1, h2 (by omega), h3⟩

/-- Witness of C7 (amended): the received counter falls from 6000000 to 1000000 over 5
seconds; the rate computed is `7205759403790841 / 2048`, about 3518437208882.247 MB/s. -/
theorem rate_wraps_witness :
    (∃ r, (monitorTick 5 ⟨6000000, 500000⟩ ⟨1000000, 1500000⟩).1 = F64.fin r ∧ 0 < r ∧
        |r - ((1000000 + 2^64 - 6000000 : Nat) : ℚ) / (5 : Int) / 1024 / 1024|
          ≤ ((1000000 + 2^64 - 6000000 : Nat) : ℚ) / (5 : Int) / 1024 / 1024 / 2 ^ 49) ∧
      (monitorTick 5 ⟨6000000, 500000⟩ ⟨1000000, 1500000⟩).1
        = F64.fin (7205759403790841 / 2048) :=
  ⟨(rate_wraps 5 (by decide) (by decide) ⟨6000000, 500000⟩ ⟨1000000, 1500000⟩ (by decide)
      (by decide)).1 (by decide),
    netSpeed_eval 1000000 6000000 5 18446744073704552448 5
      3689348814740910592
      (7205759403790841 / 2)
      (7205759403790841 / 2048)
      (by rw [show subU64 1000000 6000000 = 18446744073704551616 by decide]
          exact round_eval _ _ 63 9007199254738551 (by norm_num))
      (round_eval _ _ 2 5629499534213120 (by norm_num)) (by norm_num)
      (round_eval _ _ 61 7205759403790841 (by norm_num))
      (round_eval _ _ 51 7205759403790841 (by norm_num))
      (round_eval _ _ 41 7205759403790841 (by norm_num))⟩

/-- The value expression of `getCpuUsage`, evaluated rounding by rounding. -/
theorem cpuValue_eval (idle total : Nat) (u t q r : ℚ)
    (h1 : F64.round (subU64 total idle : ℚ) = F64.fin u)
    (h2 : F64.round (total : ℚ) = F64.fin t) (ht : t ≠ 0)
    (h3 : F64.round (u / t) = F64.fin q) (h4 : F64.round (q * 100) = F64.fin r) :
    ((F64.ofNat (subU64 total idle)).div (F64.ofNat total)).mul (F64.fin 100) = F64.fin r := by
  simp [F64.ofNat, F64.div, F64.mul, h1, h2, ht, h3, h4]

/-- C9 fails on the code: on a text in the format of `/proc/stat`, an aggregate `cpu` line
followed by a per-CPU line, `getCpuUsage` splits the whole text into fields, meets the label
`cpu0` of the second line and returns the parse error, where the claim promises the ratio of
the aggregate line, `cpuRatio`; on the aggregate line alone the float64 value of the ratio is
returned, within the relative error `2^-52` of `cpuRatio`. -/
theorem getCpuUsage_further_lines :
    getCpuUsage (some "cpu  2255 34 2290 22625563 6290 127 456 0 0 0\ncpu0 1132 34 1441 11311718 3675 127 438 0 0 0\n")
        = .inl (.parse "cpu0") ∧
      getCpuUsage (some "cpu  2255 34 2290 22625563 6290 127 456 0 0 0\n")
        = .inr (F64.fin (7290745417824309 / 144115188075855872)) ∧
      |(7290745417824309 / 144115188075855872 : ℚ)
          - cpuRatio [2255, 34, 2290, 22625563, 6290, 127, 456, 0, 0, 0]|
        ≤ cpuRatio [2255, 34, 2290, 22625563, 6290, 127, 456, 0, 0, 0] / 2 ^ 52 := by
  refine ⟨by decide, ?_, ?_⟩
  · have hf : fields "cpu  2255 34 2290 22625563 6290 127 456 0 0 0\n" =
        ["cpu", "2255", "34", "2290", "22625563", "6290", "127", "456", "0", "0", "0"] := by
      decide
    have hl : cpuLoop ["2255", "34", "2290", "22625563", "6290", "127", "456", "0", "0", "0"]
        0 0 0 = .inr (22625563, 22637015) := by decide
    have hv : ((F64.ofNat (subU64 22637015 22625563)).div (F64.ofNat 22637015)).mul
        (F64.fin 100) = F64.fin (7290745417824309 / 144115188075855872) :=
      cpuValue_eval 22625563 22637015 11452 22637015
        (2333038533703779 / 4611686018427387904)
        (7290745417824309 / 144115188075855872)
        (by rw [show subU64 22637015 22625563 = 11452 by decide]
            exact round_eval _ _ 13 6295803580645376 (by norm_num))
        (round_eval _ _ 24 6076577444003840 (by norm_num)) (by norm_num)
        (round_eval _ _ (-11) 4666077067407558 (by norm_num))
        (round_eval _ _ (-5) 7290745417824309 (by norm_num))
    simp only [getCpuUsage, hf, List.tail_cons, hl]
    rw [hv]
    rfl
  · rw [abs_le]
    norm_num [cpuRatio]

end AutoDownloader
